import Mathlib

/-!
Shallow embedding of `src/lib.rs` of the `once_cell` repository: a
write-once cell in two variants, `unsync::OnceCell<T>` (single-threaded)
and `sync::OnceCell<T>` (a slot guarded by `std::sync::Once`).

The single-threaded API of both variants is embedded as explicit
state-passing functions.  `std::sync::Once` is modelled by its tri-state
(`Uninitialized` / `InProgress` / `Completed`).  The concurrent behaviour
of `sync::OnceCell::set` is embedded as a small-step interleaving
semantics: each thread executes the statements of `set` as atomic
actions on a shared configuration (slot, gate, per-thread locals).
-/

/-- The state of `std::sync::Once`: `uninitialized` before any
`call_once`, `inProgress` while the winning closure runs, `completed`
once `call_once` has returned (then `is_completed()` is `true`). -/
inductive OnceState : Type
  | uninitialized
  | inProgress
  | completed
deriving DecidableEq, Repr

namespace unsync

/-- `unsync::OnceCell<T>`: an `UnsafeCell<Option<T>>`.  The embedding
keeps just the `Option<T>` contents. -/
structure OnceCell (T : Type) : Type where
  inner : Option T
deriving DecidableEq, Repr

variable {T : Type}

/-- `unsync::OnceCell::new`: the cell starts with `None` inside. -/
def OnceCell.new (T : Type) : OnceCell T := ⟨none⟩

/-- `unsync::OnceCell::get`: reads the `Option` behind the pointer and
takes `as_ref`; it performs no writes. -/
def OnceCell.get (c : OnceCell T) : Option T := c.inner

/-- `unsync::OnceCell::set`: if `get().is_some()` it returns
`Err(value)` leaving the cell alone; otherwise it replaces the contents
with `Some(value)` and returns `Ok(())`.  The result carries the new
cell state alongside the `Result<(), T>`. -/
def OnceCell.set (c : OnceCell T) (value : T) : Except T Unit × OnceCell T :=
  if (c.get).isSome then (Except.error value, c)
  else (Except.ok (), ⟨some value⟩)

/-- The `debug_assert!(old.is_none())` in `unsync::OnceCell::set`: the
value replaced on the success path.  The assertion is evaluated exactly
when the `get().is_some()` guard failed, and it checks that the old
contents were `None`. -/
def OnceCell.setAssertOld (c : OnceCell T) : Option T := c.inner

end unsync

namespace sync

/-- `sync::OnceCell<T>`: an `UnsafeCell<Option<T>>` next to a
`std::sync::Once`. -/
structure OnceCell (T : Type) : Type where
  inner : Option T
  once : OnceState
deriving DecidableEq, Repr

variable {T : Type}

/-- `sync::OnceCell::new`: empty slot, fresh `Once`. -/
def OnceCell.new (T : Type) : OnceCell T := ⟨none, OnceState.uninitialized⟩

/-- `sync::OnceCell::get`: if `once.is_completed()` it reads the slot,
otherwise it returns `None` at once. -/
def OnceCell.get (c : OnceCell T) : Option T :=
  if c.once = OnceState.completed then c.inner else none

/-- `sync::OnceCell::get` as a state-passing action: it takes `&self`
and performs no writes, so the state component is returned untouched. -/
def OnceCell.getS (c : OnceCell T) : Option T × OnceCell T :=
  (c.get, c)

/-- `sync::OnceCell::set`, whole-call view for a single thread with no
interference (the fine-grained interleaved version is below): the fast
check returns `Err(value)` if the `Once` is completed; otherwise
`call_once` runs the closure, which moves the value into the slot and
completes the `Once`, and the call returns `Ok(())`. -/
def OnceCell.set (c : OnceCell T) (value : T) : Except T Unit × OnceCell T :=
  if c.once = OnceState.completed then (Except.error value, c)
  else (Except.ok (), ⟨some value, OnceState.completed⟩)

end sync

/-- A single-threaded call against a cell: `get()` or `set(v)`. -/
inductive Op (T : Type) : Type
  | get
  | set (v : T)

/-- The observation a caller makes: the return value of `get` or of
`set`. -/
inductive Obs (T : Type) : Type
  | got (r : Option T)
  | setr (r : Except T Unit)

namespace unsync

variable {T : Type}

/-- State after one operation on an `unsync::OnceCell`. -/
def OnceCell.step (c : OnceCell T) : Op T → OnceCell T
  | Op.get => c
  | Op.set v => (c.set v).2

/-- Observation produced by one operation on an `unsync::OnceCell`. -/
def OnceCell.out (c : OnceCell T) : Op T → Obs T
  | Op.get => Obs.got c.get
  | Op.set v => Obs.setr (c.set v).1

/-- State after a sequence of operations. -/
def OnceCell.run (c : OnceCell T) : List (Op T) → OnceCell T
  | [] => c
  | op :: ops => (c.step op).run ops

/-- The trace of observations along a sequence of operations. -/
def OnceCell.runOut (c : OnceCell T) : List (Op T) → List (Obs T)
  | [] => []
  | op :: ops => c.out op :: (c.step op).runOut ops

end unsync

namespace sync

variable {T : Type}

/-- State after one single-threaded operation on a `sync::OnceCell`. -/
def OnceCell.step (c : OnceCell T) : Op T → OnceCell T
  | Op.get => (c.getS).2
  | Op.set v => (c.set v).2

/-- Observation produced by one single-threaded operation. -/
def OnceCell.out (c : OnceCell T) : Op T → Obs T
  | Op.get => Obs.got c.get
  | Op.set v => Obs.setr (c.set v).1

/-- State after a sequence of single-threaded operations. -/
def OnceCell.run (c : OnceCell T) : List (Op T) → OnceCell T
  | [] => c
  | op :: ops => (c.step op).run ops

/-- The trace of observations along a sequence of operations. -/
def OnceCell.runOut (c : OnceCell T) : List (Op T) → List (Obs T)
  | [] => []
  | op :: ops => c.out op :: (c.step op).runOut ops

/-- The states of a `sync::OnceCell` reachable single-threadedly from
`new` by `get` and `set` calls. -/
inductive Reachable : OnceCell T → Prop
  | new : Reachable (OnceCell.new T)
  | get {c : OnceCell T} : Reachable c → Reachable (c.getS).2
  | set {c : OnceCell T} (v : T) : Reachable c → Reachable (c.set v).2

end sync

deriving instance DecidableEq for Except

namespace sync

/-- Program counter of one thread executing `sync::OnceCell::set v`,
one state per atomic point of the source:
`start` — about to evaluate the fast check `self.once.is_completed()`;
`atCallOnce` — fast check saw "not completed", the local
`value` has been rebound to `Some(v)`, about to enter `call_once`;
`running` — this thread won the race inside `call_once` (it moved the
`Once` to in-progress) and is about to run the closure body;
`closing` — the closure body has run, `call_once` is about to mark the
`Once` completed;
`afterCall` — `call_once` returned, about to `match value`;
`done r` — the call returned `r`. -/
inductive TPC (T : Type) : Type
  | start
  | atCallOnce
  | running
  | closing
  | afterCall
  | done (r : Except T Unit)
deriving DecidableEq

/-- One thread of the interleaving semantics: its original argument
`arg`, its program counter, and the local `value : Option<T>` variable
(`none` until the fast check rebinds it to `Some arg`). -/
structure Thread (T : Type) : Type where
  arg : T
  pc : TPC T
  val : Option T
deriving DecidableEq

/-- A configuration of `n` threads all calling `set` on one shared
`sync::OnceCell`: the shared slot, the shared `Once`, and the thread
states. -/
structure Config (n : Nat) (T : Type) : Type where
  slot : Option T
  gate : OnceState
  th : Fin n → Thread T
deriving DecidableEq

variable {n : Nat}

/-- Replace thread `i`'s state. -/
def Config.updTh (c : Config n T) (i : Fin n) (t : Thread T) : Config n T :=
  { c with th := Function.update c.th i t }

/-- One atomic step of one thread executing `sync::OnceCell::set`.
`call_once` is modelled faithfully: a caller finding the `Once`
uninitialized atomically claims it (`win`); a caller finding it
completed returns without running the closure (`skipClosure`); a caller
finding it in progress is blocked (no step is enabled) until the runner
completes.  The closure body `replace(inner, value.take())` is the
`runClosure` step; `call_once` marking the `Once` completed is the
`complete` step. -/
inductive CStep : Config n T → Config n T → Prop
  | fastHit (c : Config n T) (i : Fin n) :
      (c.th i).pc = TPC.start → c.gate = OnceState.completed →
      CStep c (c.updTh i { c.th i with pc := TPC.done (Except.error (c.th i).arg) })
  | fastMiss (c : Config n T) (i : Fin n) :
      (c.th i).pc = TPC.start → c.gate ≠ OnceState.completed →
      CStep c (c.updTh i { c.th i with pc := TPC.atCallOnce, val := some (c.th i).arg })
  | win (c : Config n T) (i : Fin n) :
      (c.th i).pc = TPC.atCallOnce → c.gate = OnceState.uninitialized →
      CStep c { c.updTh i { c.th i with pc := TPC.running } with gate := OnceState.inProgress }
  | runClosure (c : Config n T) (i : Fin n) :
      (c.th i).pc = TPC.running →
      CStep c { c.updTh i { c.th i with pc := TPC.closing, val := none } with slot := (c.th i).val }
  | complete (c : Config n T) (i : Fin n) :
      (c.th i).pc = TPC.closing →
      CStep c { c.updTh i { c.th i with pc := TPC.afterCall } with gate := OnceState.completed }
  | skipClosure (c : Config n T) (i : Fin n) :
      (c.th i).pc = TPC.atCallOnce → c.gate = OnceState.completed →
      CStep c (c.updTh i { c.th i with pc := TPC.afterCall })
  | matchOk (c : Config n T) (i : Fin n) :
      (c.th i).pc = TPC.afterCall → (c.th i).val = none →
      CStep c (c.updTh i { c.th i with pc := TPC.done (Except.ok ()) })
  | matchErr (c : Config n T) (i : Fin n) (w : T) :
      (c.th i).pc = TPC.afterCall → (c.th i).val = some w →
      CStep c (c.updTh i { c.th i with pc := TPC.done (Except.error w) })

/-- Interleaved executions: reflexive-transitive closure of `CStep`. -/
def Reach : Config n T → Config n T → Prop := Relation.ReflTransGen CStep

/-- The initial configuration: fresh cell (`new`), every thread about
to call `set (vs i)`. -/
def initConfig (n : Nat) (vs : Fin n → T) : Config n T :=
  ⟨none, OnceState.uninitialized, fun i => ⟨vs i, TPC.start, none⟩⟩

/-- Whether a thread's `set` call has returned. -/
def TPC.isDone : TPC T → Bool
  | TPC.done _ => true
  | _ => false

/-- All `set` calls have returned. -/
def Config.Finished (c : Config n T) : Prop :=
  ∀ i, ((c.th i).pc).isDone = true

/-- `sync::OnceCell::get` evaluated against a mid-execution
configuration: if the `Once` is completed it reads the slot, otherwise
it returns `None` immediately. -/
def Config.getC (c : Config n T) : Option T :=
  if c.gate = OnceState.completed then c.slot else none

/-- The thread that performs (or has performed) the one write: it is in
the closure, or past it with its local `value` taken, or returned
`Ok(())`. -/
def Thread.winner (t : Thread T) : Prop :=
  t.pc = TPC.running ∨ t.pc = TPC.closing ∨
    (t.pc = TPC.afterCall ∧ t.val = none) ∨ t.pc = TPC.done (Except.ok ())

/-- Relation between a thread's program counter, its original argument,
its local `value`, and the shared slot and gate; case analysis on the
program counter. -/
def PcInv (slot : Option T) (gate : OnceState) (arg : T) (val : Option T) :
    TPC T → Prop
  | TPC.start => val = none
  | TPC.atCallOnce => val = some arg
  | TPC.running => val = some arg ∧ gate = OnceState.inProgress ∧ slot = none
  | TPC.closing => val = none ∧ gate = OnceState.inProgress ∧ slot = some arg
  | TPC.afterCall => gate = OnceState.completed ∧
      (val = none → slot = some arg) ∧ (val ≠ none → val = some arg)
  | TPC.done r =>
      (r = Except.ok () → gate = OnceState.completed ∧ slot = some arg) ∧
      (∀ w, r = Except.error w → w = arg)

/-- Thread-local part of the global invariant. -/
def ThreadInv (slot : Option T) (gate : OnceState) (t : Thread T) : Prop :=
  PcInv slot gate t.arg t.val t.pc

/-- Global invariant of the interleaving semantics. -/
structure Inv (c : Config n T) : Prop where
  thInv : ∀ i, ThreadInv c.slot c.gate (c.th i)
  uniq : ∀ i j, (c.th i).winner → (c.th j).winner → i = j
  slotOrigin : ∀ v, c.slot = some v →
      ∃ i, (c.th i).winner ∧ (c.th i).arg = v ∧ (c.th i).pc ≠ TPC.running
  gateUninit : c.gate = OnceState.uninitialized →
      c.slot = none ∧ ∀ i, (c.th i).pc = TPC.start ∨ (c.th i).pc = TPC.atCallOnce
  gateCompleted : c.gate = OnceState.completed → ∃ v, c.slot = some v
  gateInProgress : c.gate = OnceState.inProgress →
      ∃ i, (c.th i).pc = TPC.running ∨ (c.th i).pc = TPC.closing

end sync

/-- Simulation relation between the two variants for single-threaded
use: same slot contents, and the sync gate is completed exactly when
the slot is occupied. -/
def simRel {T : Type} (u : unsync.OnceCell T) (s : sync.OnceCell T) : Prop :=
  s.inner = u.inner ∧ (s.once = OnceState.completed ↔ (u.inner).isSome = true)

/-- Concrete two-thread race: the configurations of one interleaving
in which thread 0 runs `set 0` to completion and thread 1 then calls
`set 1` and fails at the fast check. -/
def raceC0 : sync.Config 2 Nat := sync.initConfig 2 ![0, 1]

/-- After thread 0's fast check (gate not completed). -/
def raceC1 : sync.Config 2 Nat :=
  ⟨none, OnceState.uninitialized,
    ![⟨0, sync.TPC.atCallOnce, some 0⟩, ⟨1, sync.TPC.start, none⟩]⟩

/-- After thread 0 wins `call_once`. -/
def raceC2 : sync.Config 2 Nat :=
  ⟨none, OnceState.inProgress,
    ![⟨0, sync.TPC.running, some 0⟩, ⟨1, sync.TPC.start, none⟩]⟩

/-- After thread 0 runs the closure body. -/
def raceC3 : sync.Config 2 Nat :=
  ⟨some 0, OnceState.inProgress,
    ![⟨0, sync.TPC.closing, none⟩, ⟨1, sync.TPC.start, none⟩]⟩

/-- After `call_once` marks the `Once` completed. -/
def raceC4 : sync.Config 2 Nat :=
  ⟨some 0, OnceState.completed,
    ![⟨0, sync.TPC.afterCall, none⟩, ⟨1, sync.TPC.start, none⟩]⟩

/-- After thread 0 returns `Ok(())`. -/
def raceC5 : sync.Config 2 Nat :=
  ⟨some 0, OnceState.completed,
    ![⟨0, sync.TPC.done (Except.ok ()), none⟩, ⟨1, sync.TPC.start, none⟩]⟩

/-- After thread 1 fails the fast check and returns `Err(1)`. -/
def raceC6 : sync.Config 2 Nat :=
  ⟨some 0, OnceState.completed,
    ![⟨0, sync.TPC.done (Except.ok ()), none⟩,
      ⟨1, sync.TPC.done (Except.error 1), none⟩]⟩

/-- Concrete two-thread benign-race window: both threads pass the fast
check before either enters `call_once`; thread 0 wins and thread 1
skips the closure, keeping its local value. -/
def benC0 : sync.Config 2 Nat := sync.initConfig 2 ![0, 1]

/-- After thread 1's fast check (gate not completed). -/
def benC1 : sync.Config 2 Nat :=
  ⟨none, OnceState.uninitialized,
    ![⟨0, sync.TPC.start, none⟩, ⟨1, sync.TPC.atCallOnce, some 1⟩]⟩

/-- After thread 0's fast check. -/
def benC2 : sync.Config 2 Nat :=
  ⟨none, OnceState.uninitialized,
    ![⟨0, sync.TPC.atCallOnce, some 0⟩, ⟨1, sync.TPC.atCallOnce, some 1⟩]⟩

/-- After thread 0 wins `call_once`: it is inside the closure and the
slot is still empty. -/
def benC3 : sync.Config 2 Nat :=
  ⟨none, OnceState.inProgress,
    ![⟨0, sync.TPC.running, some 0⟩, ⟨1, sync.TPC.atCallOnce, some 1⟩]⟩

/-- After thread 0 runs the closure body. -/
def benC4 : sync.Config 2 Nat :=
  ⟨some 0, OnceState.inProgress,
    ![⟨0, sync.TPC.closing, none⟩, ⟨1, sync.TPC.atCallOnce, some 1⟩]⟩

/-- After `call_once` marks the `Once` completed. -/
def benC5 : sync.Config 2 Nat :=
  ⟨some 0, OnceState.completed,
    ![⟨0, sync.TPC.afterCall, none⟩, ⟨1, sync.TPC.atCallOnce, some 1⟩]⟩

/-- After thread 1 enters `call_once`, sees it completed and skips the
closure: its local value is still `some 1`. -/
def benC6 : sync.Config 2 Nat :=
  ⟨some 0, OnceState.completed,
    ![⟨0, sync.TPC.afterCall, none⟩, ⟨1, sync.TPC.afterCall, some 1⟩]⟩

namespace sync

variable {T : Type} {n : Nat}

theorem Config.updTh_th (c : Config n T) (i : Fin n) (t : Thread T) (j : Fin n) :
    (c.updTh i t).th j = if j = i then t else c.th j := by
  simp [Config.updTh, Function.update_apply]

@[simp] theorem Config.updTh_th_self (c : Config n T) (i : Fin n) (t : Thread T) :
    (c.updTh i t).th i = t := by
  simp [Config.updTh]

theorem Config.updTh_th_ne (c : Config n T) (i : Fin n) (t : Thread T) {j : Fin n}
    (hj : j ≠ i) : (c.updTh i t).th j = c.th j := by
  simp [Config.updTh, Function.update_apply, hj]

@[simp] theorem Config.updTh_slot (c : Config n T) (i : Fin n) (t : Thread T) :
    (c.updTh i t).slot = c.slot := rfl

@[simp] theorem Config.updTh_gate (c : Config n T) (i : Fin n) (t : Thread T) :
    (c.updTh i t).gate = c.gate := rfl

/-- Frame lemma: updating one thread, with slot and gate untouched,
preserves the invariant provided the new thread state is locally
consistent, winner status is neither gained nor lost spuriously, and
the thread was not and does not become the in-closure runner. -/
theorem Inv.updTh {c : Config n T} (h : Inv c) (i : Fin n) (t : Thread T)
    (harg : t.arg = (c.th i).arg)
    (hti : ThreadInv c.slot c.gate t)
    (hw1 : t.winner → (c.th i).winner)
    (hw2 : (c.th i).winner → t.winner)
    (hnr : t.pc ≠ TPC.running)
    (hold : (c.th i).pc ≠ TPC.running ∧ (c.th i).pc ≠ TPC.closing)
    (hun : c.gate = OnceState.uninitialized → t.pc = TPC.start ∨ t.pc = TPC.atCallOnce) :
    Inv (c.updTh i t) := by
  refine ⟨?_, ?_, ?_, ?_, ?_, ?_⟩
  · intro j
    rw [Config.updTh_th]
    by_cases hj : j = i
    · simpa [hj] using hti
    · simpa [hj] using h.thInv j
  · intro i1 j1 hx1 hx2
    rw [Config.updTh_th] at hx1 hx2
    by_cases h1 : i1 = i <;> by_cases h2 : j1 = i
    · rw [h1, h2]
    · rw [if_pos h1] at hx1
      rw [if_neg h2] at hx2
      exact absurd (h.uniq i j1 (hw1 hx1) hx2).symm h2
    · rw [if_neg h1] at hx1
      rw [if_pos h2] at hx2
      exact absurd (h.uniq i1 i hx1 (hw1 hx2)) h1
    · rw [if_neg h1] at hx1
      rw [if_neg h2] at hx2
      exact h.uniq i1 j1 hx1 hx2
  · intro v hv
    rw [Config.updTh_slot] at hv
    obtain ⟨k, hk1, hk2, hk3⟩ := h.slotOrigin v hv
    by_cases hki : k = i
    · subst hki
      refine ⟨k, ?_, ?_, ?_⟩ <;> rw [Config.updTh_th_self]
      · exact hw2 hk1
      · exact harg.trans hk2
      · exact hnr
    · refine ⟨k, ?_, ?_, ?_⟩ <;> rw [Config.updTh_th_ne c i t hki]
      · exact hk1
      · exact hk2
      · exact hk3
  · intro hg
    rw [Config.updTh_gate] at hg
    obtain ⟨hs0, hpcs⟩ := h.gateUninit hg
    refine ⟨by rw [Config.updTh_slot]; exact hs0, ?_⟩
    intro j
    rw [Config.updTh_th]
    by_cases hj : j = i
    · simpa [hj] using hun hg
    · simpa [hj] using hpcs j
  · intro hg
    rw [Config.updTh_gate] at hg
    obtain ⟨v, hv⟩ := h.gateCompleted hg
    exact ⟨v, by rw [Config.updTh_slot]; exact hv⟩
  · intro hg
    rw [Config.updTh_gate] at hg
    obtain ⟨k, hk⟩ := h.gateInProgress hg
    have hki : k ≠ i := by
      intro e
      rw [e] at hk
      rcases hk with hk | hk
      · exact hold.1 hk
      · exact hold.2 hk
    exact ⟨k, by rw [Config.updTh_th_ne c i t hki]; exact hk⟩

/-- While the gate is in progress, a thread that is not the winner can
only be before the fast check, about to enter `call_once`, or already
returned with an error. -/
theorem nonwinner_class {c : Config n T} (h : Inv c)
    (hgate : c.gate = OnceState.inProgress) {j : Fin n} (hnw : ¬ (c.th j).winner) :
    (c.th j).pc = TPC.start ∨ (c.th j).pc = TPC.atCallOnce ∨
      ∃ w, (c.th j).pc = TPC.done (Except.error w) := by
  rcases hpcj : (c.th j).pc with _ | _ | _ | _ | _ | r
  · exact Or.inl rfl
  · exact Or.inr (Or.inl rfl)
  · exact absurd (Or.inl hpcj) hnw
  · exact absurd (Or.inr (Or.inl hpcj)) hnw
  · have h2 := h.thInv j
    simp only [ThreadInv, hpcj, PcInv] at h2
    exact absurd (hgate.symm.trans h2.1) (by decide)
  · cases r with
    | ok u =>
        cases u
        exact absurd (Or.inr (Or.inr (Or.inr hpcj))) hnw
    | error w => exact Or.inr (Or.inr ⟨w, rfl⟩)

/-- The thread-local invariant of a thread that is before the fast
check, about to enter `call_once`, or returned with an error, does not
depend on the shared slot and gate. -/
theorem threadInv_nonwinner {slot slot2 : Option T} {gate gate2 : OnceState}
    {t : Thread T} (h : ThreadInv slot gate t)
    (hcl : t.pc = TPC.start ∨ t.pc = TPC.atCallOnce ∨
      ∃ w, t.pc = TPC.done (Except.error w)) :
    ThreadInv slot2 gate2 t := by
  rcases hcl with h1 | h1 | ⟨w, h1⟩ <;> simp only [ThreadInv, h1, PcInv] at h ⊢
  · exact h
  · exact h
  · exact ⟨fun hok => absurd hok (by simp), h.2⟩

/-- The global invariant is preserved by every atomic step. -/
theorem inv_step {c c2 : Config n T} (h : Inv c) (hs : CStep c c2) : Inv c2 := by
  cases hs with
  | fastHit i hpc hg =>
      refine h.updTh i _ rfl ?_ ?_ ?_ (by simp) ⟨by simp [hpc], by simp [hpc]⟩ ?_
      · simp only [ThreadInv, PcInv]
        refine ⟨fun hok => absurd hok (by simp), fun w hw => ?_⟩
        injection hw with h1
        exact h1.symm
      · exact fun hwin => absurd hwin (by simp [Thread.winner])
      · exact fun hwin => absurd hwin (by simp [Thread.winner, hpc])
      · exact fun hu => absurd (hg.symm.trans hu) (by decide)
  | fastMiss i hpc hg =>
      refine h.updTh i _ rfl ?_ ?_ ?_ (by simp) ⟨by simp [hpc], by simp [hpc]⟩ ?_
      · simp only [ThreadInv, PcInv]
      · exact fun hwin => absurd hwin (by simp [Thread.winner])
      · exact fun hwin => absurd hwin (by simp [Thread.winner, hpc])
      · exact fun _ => Or.inr rfl
  | skipClosure i hpc hg =>
      have hI := h.thInv i
      simp only [ThreadInv, hpc, PcInv] at hI
      refine h.updTh i _ rfl ?_ ?_ ?_ (by simp) ⟨by simp [hpc], by simp [hpc]⟩ ?_
      · simp only [ThreadInv, PcInv]
        exact ⟨hg, fun hv => absurd (hv.symm.trans hI) (by simp), fun _ => hI⟩
      · exact fun hwin => absurd hwin (by simp [Thread.winner, hI])
      · exact fun hwin => absurd hwin (by simp [Thread.winner, hpc])
      · exact fun hu => absurd (hu.symm.trans hg) (by decide)
  | matchOk i hpc hv =>
      have hI := h.thInv i
      simp only [ThreadInv, hpc, PcInv] at hI
      refine h.updTh i _ rfl ?_ ?_ ?_ (by simp) ⟨by simp [hpc], by simp [hpc]⟩ ?_
      · simp only [ThreadInv, PcInv]
        exact ⟨fun _ => ⟨hI.1, hI.2.1 hv⟩, fun w hw => by simp at hw⟩
      · exact fun _ => Or.inr (Or.inr (Or.inl ⟨hpc, hv⟩))
      · exact fun _ => Or.inr (Or.inr (Or.inr rfl))
      · exact fun hu => absurd (hu.symm.trans hI.1) (by decide)
  | matchErr i w hpc hv =>
      have hI := h.thInv i
      simp only [ThreadInv, hpc, PcInv] at hI
      have hva : (c.th i).val = some ((c.th i).arg) := hI.2.2 (by rw [hv]; simp)
      have hwa : w = (c.th i).arg := by
        have h2 := hv.symm.trans hva
        injection h2
      refine h.updTh i _ rfl ?_ ?_ ?_ (by simp) ⟨by simp [hpc], by simp [hpc]⟩ ?_
      · simp only [ThreadInv, PcInv]
        refine ⟨fun hok => absurd hok (by simp), fun u hu => ?_⟩
        injection hu with h1
        rw [← h1, hwa]
      · exact fun hwin => absurd hwin (by simp [Thread.winner])
      · exact fun hwin => absurd hwin (by simp [Thread.winner, hpc, hv])
      · exact fun hu => absurd (hu.symm.trans hI.1) (by decide)
  | win i hpc hg =>
      obtain ⟨hs0, hpcs⟩ := h.gateUninit hg
      have hI := h.thInv i
      simp only [ThreadInv, hpc, PcInv] at hI
      refine ⟨?_, ?_, ?_, ?_, ?_, ?_⟩
      · intro j
        simp only [Config.updTh, Function.update_apply]
        by_cases hj : j = i
        · simp only [if_pos hj]
          simp only [ThreadInv, PcInv]
          exact ⟨hI, trivial, hs0⟩
        · simp only [if_neg hj]
          rcases hpcs j with hj1 | hj1 <;>
            · have h2 := h.thInv j
              simp only [ThreadInv, hj1, PcInv] at h2 ⊢
              exact h2
      · intro i1 j1 hx1 hx2
        simp only [Config.updTh, Function.update_apply] at hx1 hx2
        by_cases h1 : i1 = i <;> by_cases h2 : j1 = i
        · rw [h1, h2]
        · rw [if_neg h2] at hx2
          rcases hpcs j1 with hj1 | hj1 <;> simp [Thread.winner, hj1] at hx2
        · rw [if_neg h1] at hx1
          rcases hpcs i1 with hj1 | hj1 <;> simp [Thread.winner, hj1] at hx1
        · rw [if_neg h1] at hx1
          rcases hpcs i1 with hj1 | hj1 <;> simp [Thread.winner, hj1] at hx1
      · intro v hv
        simp only [Config.updTh] at hv
        rw [hs0] at hv
        cases hv
      · intro hgx
        exact absurd hgx (by simp)
      · intro hgx
        exact absurd hgx (by simp)
      · intro _
        refine ⟨i, Or.inl ?_⟩
        simp [Config.updTh, Function.update_apply]
  | runClosure i hpc =>
      have hI := h.thInv i
      simp only [ThreadInv, hpc, PcInv] at hI
      obtain ⟨hval, hgate, hslot⟩ := hI
      have hno : ∀ j, j ≠ i → ¬ (c.th j).winner := fun j hj hw =>
        hj (h.uniq j i hw (Or.inl hpc))
      refine ⟨?_, ?_, ?_, ?_, ?_, ?_⟩
      · intro j
        simp only [Config.updTh, Function.update_apply]
        by_cases hj : j = i
        · simp only [if_pos hj]
          simp only [ThreadInv, PcInv]
          exact ⟨trivial, hgate, hval⟩
        · simp only [if_neg hj]
          exact threadInv_nonwinner (h.thInv j) (nonwinner_class h hgate (hno j hj))
      · intro i1 j1 hx1 hx2
        simp only [Config.updTh, Function.update_apply] at hx1 hx2
        by_cases h1 : i1 = i <;> by_cases h2 : j1 = i
        · rw [h1, h2]
        · rw [if_neg h2] at hx2
          exact absurd hx2 (hno j1 h2)
        · rw [if_neg h1] at hx1
          exact absurd hx1 (hno i1 h1)
        · rw [if_neg h1] at hx1
          exact absurd hx1 (hno i1 h1)
      · intro v hv
        simp only [Config.updTh] at hv
        rw [hval] at hv
        injection hv with hv1
        refine ⟨i, ?_, ?_, ?_⟩ <;> simp only [Config.updTh, Function.update_same]
        · exact Or.inr (Or.inl rfl)
        · exact hv1
        · simp
      · intro hgx
        exact absurd (hgx.symm.trans hgate) (by decide)
      · intro hgx
        exact absurd (hgate.symm.trans hgx) (by decide)
      · intro _
        refine ⟨i, Or.inr ?_⟩
        simp [Config.updTh, Function.update_same]
  | complete i hpc =>
      have hI := h.thInv i
      simp only [ThreadInv, hpc, PcInv] at hI
      obtain ⟨hval, hgate, hslot⟩ := hI
      have hno : ∀ j, j ≠ i → ¬ (c.th j).winner := fun j hj hw =>
        hj (h.uniq j i hw (Or.inr (Or.inl hpc)))
      refine ⟨?_, ?_, ?_, ?_, ?_, ?_⟩
      · intro j
        simp only [Config.updTh, Function.update_apply]
        by_cases hj : j = i
        · simp only [if_pos hj]
          simp only [ThreadInv, PcInv]
          exact ⟨trivial, fun _ => hslot, fun hne => absurd hval hne⟩
        · simp only [if_neg hj]
          exact threadInv_nonwinner (h.thInv j) (nonwinner_class h hgate (hno j hj))
      · intro i1 j1 hx1 hx2
        simp only [Config.updTh, Function.update_apply] at hx1 hx2
        by_cases h1 : i1 = i <;> by_cases h2 : j1 = i
        · rw [h1, h2]
        · rw [if_neg h2] at hx2
          exact absurd hx2 (hno j1 h2)
        · rw [if_neg h1] at hx1
          exact absurd hx1 (hno i1 h1)
        · rw [if_neg h1] at hx1
          exact absurd hx1 (hno i1 h1)
      · intro v hv
        simp only [Config.updTh] at hv
        have h2 := hslot.symm.trans hv
        injection h2 with hv1
        refine ⟨i, ?_, ?_, ?_⟩ <;> simp only [Config.updTh, Function.update_same]
        · exact Or.inr (Or.inr (Or.inl ⟨rfl, hval⟩))
        · exact hv1
        · simp
      · intro hgx
        exact absurd hgx (by simp)
      · intro hgx
        exact ⟨(c.th i).arg, hslot⟩
      · intro hgx
        exact absurd hgx (by simp)

/-- The initial configuration satisfies the invariant. -/
theorem inv_init (vs : Fin n → T) : Inv (initConfig n vs) := by
  refine ⟨?_, ?_, ?_, ?_, ?_, ?_⟩
  · intro i
    simp [initConfig, ThreadInv, PcInv]
  · intro i j hi hj
    simp [initConfig, Thread.winner] at hi
  · intro v hv
    simp [initConfig] at hv
  · intro _
    exact ⟨rfl, fun i => Or.inl rfl⟩
  · intro hg
    simp [initConfig] at hg
  · intro hg
    simp [initConfig] at hg

/-- The invariant holds in every configuration reachable from one that
satisfies it. -/
theorem inv_reach {c c2 : Config n T} (h : Reach c c2) (h0 : Inv c) : Inv c2 := by
  induction h with
  | refl => exact h0
  | tail _ hstep ih => exact inv_step ih hstep

/-- A step never changes any thread's original argument. -/
theorem step_arg {c c2 : Config n T} (hs : CStep c c2) (j : Fin n) :
    (c2.th j).arg = (c.th j).arg := by
  cases hs <;>
    · simp only [Config.updTh, Function.update_apply]
      split <;> simp_all

/-- Reachability never changes any thread's original argument. -/
theorem reach_arg {c c2 : Config n T} (h : Reach c c2) (j : Fin n) :
    (c2.th j).arg = (c.th j).arg := by
  induction h with
  | refl => rfl
  | tail _ hstep ih => exact (step_arg hstep j).trans ih

/-- In an invariant-satisfying configuration where every call has
returned, the gate is completed (provided there is at least one
thread). -/
theorem inv_finished_completed {c : Config n T} (h : Inv c) (hfin : c.Finished)
    (hn : 0 < n) : c.gate = OnceState.completed := by
  rcases hgc : c.gate with _ | _ | _
  · obtain ⟨_, hpcs⟩ := h.gateUninit hgc
    have hd := hfin ⟨0, hn⟩
    rcases hpcs ⟨0, hn⟩ with h1 | h1 <;> rw [h1] at hd <;> simp [TPC.isDone] at hd
  · obtain ⟨k, hk⟩ := h.gateInProgress hgc
    have hd := hfin k
    rcases hk with h1 | h1 <;> rw [h1] at hd <;> simp [TPC.isDone] at hd
  · rfl

/-- In an invariant-satisfying finished configuration: one thread
returned `Ok(())`, its argument is in the slot, every other thread
returned `Err` with its own argument, and no second thread returned
`Ok`. -/
theorem finished_result {c : Config n T} (h : Inv c) (hfin : c.Finished)
    (hn : 0 < n) :
    ∃ i : Fin n, (c.th i).pc = TPC.done (Except.ok ()) ∧
      c.slot = some ((c.th i).arg) ∧ c.gate = OnceState.completed ∧
      (∀ j, j ≠ i → (c.th j).pc = TPC.done (Except.error ((c.th j).arg))) ∧
      (∀ j, (c.th j).pc = TPC.done (Except.ok ()) → j = i) := by
  have hgc := inv_finished_completed h hfin hn
  obtain ⟨v, hv⟩ := h.gateCompleted hgc
  obtain ⟨i, hw, ha, _⟩ := h.slotOrigin v hv
  have hpci : (c.th i).pc = TPC.done (Except.ok ()) := by
    have hd := hfin i
    rcases hw2 : hw with h1 | h1 | ⟨h1, _⟩ | h1
    · rw [h1] at hd
      simp [TPC.isDone] at hd
    · rw [h1] at hd
      simp [TPC.isDone] at hd
    · rw [h1] at hd
      simp [TPC.isDone] at hd
    · exact h1
  refine ⟨i, hpci, ?_, hgc, ?_, ?_⟩
  · rw [hv, ha]
  · intro j hj
    have hd := hfin j
    rcases hpcj : (c.th j).pc with _ | _ | _ | _ | _ | r
    · rw [hpcj] at hd
      simp [TPC.isDone] at hd
    · rw [hpcj] at hd
      simp [TPC.isDone] at hd
    · rw [hpcj] at hd
      simp [TPC.isDone] at hd
    · rw [hpcj] at hd
      simp [TPC.isDone] at hd
    · rw [hpcj] at hd
      simp [TPC.isDone] at hd
    · cases r with
      | ok u =>
          cases u
          exact absurd (h.uniq j i (Or.inr (Or.inr (Or.inr hpcj))) hw) hj
      | error w =>
          have h2 := h.thInv j
          simp only [ThreadInv, hpcj, PcInv] at h2
          rw [h2.2 w rfl]
  · intro j hpcj
    exact h.uniq j i (Or.inr (Or.inr (Or.inr hpcj))) hw

end sync

namespace sync

variable {T : Type}

/-- Single-threaded invariant: in every reachable `sync::OnceCell`
state, the `Once` is completed exactly when the slot holds a value. -/
theorem reachable_inv {c : OnceCell T} (h : Reachable c) :
    c.once = OnceState.completed ↔ (c.inner).isSome = true := by
  induction h with
  | new => simp [OnceCell.new]
  | get h ih => exact ih
  | @set c v h ih =>
      by_cases hc : c.once = OnceState.completed
      · simpa [OnceCell.set, hc] using ih
      · simp [OnceCell.set, hc]

/-- Single-threadedly reachable states never leave the `Once` in
progress between calls. -/
theorem reachable_not_inProgress {c : OnceCell T} (h : Reachable c) :
    c.once ≠ OnceState.inProgress := by
  induction h with
  | new => simp [OnceCell.new]
  | get h ih => exact ih
  | @set c v h ih =>
      by_cases hc : c.once = OnceState.completed
      · simp [OnceCell.set, hc]
      · simp [OnceCell.set, hc]

/-- Once the `Once` is completed, neither `get` nor `set` changes the
state. -/
theorem step_completed_fix {c : OnceCell T} (hc : c.once = OnceState.completed)
    (op : Op T) : c.step op = c := by
  cases op with
  | get => rfl
  | set v => simp [OnceCell.step, OnceCell.set, hc]

/-- Once the `Once` is completed, no sequence of calls changes the
state. -/
theorem run_completed_fix {c : OnceCell T} (hc : c.once = OnceState.completed) :
    ∀ ops : List (Op T), c.run ops = c
  | [] => rfl
  | op :: ops => by
      show (c.step op).run ops = c
      rw [step_completed_fix hc op]
      exact run_completed_fix hc ops

/-- If `get` returns a value, the `Once` is completed and the slot
holds that value. -/
theorem get_some {c : OnceCell T} {v : T} (h : c.get = some v) :
    c.once = OnceState.completed ∧ c.inner = some v := by
  by_cases hc : c.once = OnceState.completed
  · exact ⟨hc, by simpa [OnceCell.get, hc] using h⟩
  · simp [OnceCell.get, hc] at h

/-- Any number of `get` calls leaves the state unchanged. -/
theorem run_gets_sync (c : OnceCell T) :
    ∀ k : Nat, c.run (List.replicate k Op.get) = c
  | 0 => rfl
  | k + 1 => by
      rw [List.replicate_succ]
      show (c.step Op.get).run (List.replicate k Op.get) = c
      exact run_gets_sync c k

end sync

namespace unsync

variable {T : Type}

/-- Once the cell holds a value, neither `get` nor `set` changes the
state. -/
theorem step_some_fix {c : OnceCell T} {v : T} (hc : c.inner = some v)
    (op : Op T) : c.step op = c := by
  cases op with
  | get => rfl
  | set w => simp [OnceCell.step, OnceCell.set, OnceCell.get, hc]

/-- Once the cell holds a value, no sequence of calls changes the
state. -/
theorem run_some_fix {c : OnceCell T} {v : T} (hc : c.inner = some v) :
    ∀ ops : List (Op T), c.run ops = c
  | [] => rfl
  | op :: ops => by
      show (c.step op).run ops = c
      rw [step_some_fix hc op]
      exact run_some_fix hc ops

/-- Any number of `get` calls leaves the state unchanged. -/
theorem run_gets_unsync (c : OnceCell T) :
    ∀ k : Nat, c.run (List.replicate k Op.get) = c
  | 0 => rfl
  | k + 1 => by
      rw [List.replicate_succ]
      show (c.step Op.get).run (List.replicate k Op.get) = c
      exact run_gets_unsync c k

end unsync

/-- Related states produce the same observation for every operation. -/
theorem sim_out {T : Type} {u : unsync.OnceCell T} {s : sync.OnceCell T}
    (h : simRel u s) (op : Op T) : u.out op = s.out op := by
  obtain ⟨hinner, hgate⟩ := h
  cases op with
  | get =>
      by_cases hc : s.once = OnceState.completed
      · simp [unsync.OnceCell.out, sync.OnceCell.out, unsync.OnceCell.get,
          sync.OnceCell.get, hc, hinner]
      · have : (u.inner).isSome = false := by
          rcases hu : u.inner with _ | w
          · rfl
          · exact absurd (hgate.mpr (by simp [hu])) hc
        rcases hu : u.inner with _ | w
        · simp [unsync.OnceCell.out, sync.OnceCell.out, unsync.OnceCell.get,
            sync.OnceCell.get, hc, hu]
        · rw [hu] at this
          simp at this
  | set v =>
      by_cases hc : (u.inner).isSome = true
      · have hcs : s.once = OnceState.completed := hgate.mpr hc
        simp [unsync.OnceCell.out, sync.OnceCell.out, unsync.OnceCell.set,
          sync.OnceCell.set, unsync.OnceCell.get, hc, hcs]
      · have hcs : s.once ≠ OnceState.completed := fun hx => hc (hgate.mp hx)
        simp [unsync.OnceCell.out, sync.OnceCell.out, unsync.OnceCell.set,
          sync.OnceCell.set, unsync.OnceCell.get, hc, hcs]

/-- The simulation relation is preserved by every operation. -/
theorem sim_step {T : Type} {u : unsync.OnceCell T} {s : sync.OnceCell T}
    (h : simRel u s) (op : Op T) : simRel (u.step op) (s.step op) := by
  obtain ⟨hinner, hgate⟩ := h
  cases op with
  | get => exact ⟨hinner, hgate⟩
  | set v =>
      by_cases hc : (u.inner).isSome = true
      · have hcs : s.once = OnceState.completed := hgate.mpr hc
        simpa [unsync.OnceCell.step, sync.OnceCell.step, unsync.OnceCell.set,
          sync.OnceCell.set, unsync.OnceCell.get, hc, hcs] using ⟨hinner, hgate⟩
      · have hcs : s.once ≠ OnceState.completed := fun hx => hc (hgate.mp hx)
        simp [unsync.OnceCell.step, sync.OnceCell.step, unsync.OnceCell.set,
          sync.OnceCell.set, unsync.OnceCell.get, hc, hcs, simRel]

/-- Related states produce identical traces on every operation list. -/
theorem sim_runOut {T : Type} {u : unsync.OnceCell T} {s : sync.OnceCell T}
    (h : simRel u s) : ∀ ops : List (Op T), u.runOut ops = s.runOut ops
  | [] => rfl
  | op :: ops => by
      show u.out op :: (u.step op).runOut ops = s.out op :: (s.step op).runOut ops
      rw [sim_out h op]
      exact congrArg _ (sim_runOut (sim_step h op) ops)

/-- Componentwise extensionality for configurations. -/
theorem configExt {n : Nat} {T : Type} {c d : sync.Config n T} (h1 : c.slot = d.slot)
    (h2 : c.gate = d.gate) (h3 : ∀ i, c.th i = d.th i) : c = d := by
  cases c
  cases d
  simp only [sync.Config.mk.injEq]
  exact ⟨h1, h2, funext h3⟩

theorem raceStep1 : sync.CStep raceC0 raceC1 := by
  have h := sync.CStep.fastMiss raceC0 0 (by decide) (by decide)
  have e : raceC0.updTh 0
      { raceC0.th 0 with pc := sync.TPC.atCallOnce, val := some ((raceC0.th 0).arg) }
      = raceC1 := by
    refine configExt rfl rfl (fun j => ?_)
    fin_cases j <;> rfl
  exact e ▸ h

theorem raceStep2 : sync.CStep raceC1 raceC2 := by
  have h := sync.CStep.win raceC1 0 (by decide) (by decide)
  have e : ({ raceC1.updTh 0 { raceC1.th 0 with pc := sync.TPC.running } with
      gate := OnceState.inProgress } : sync.Config 2 Nat) = raceC2 := by
    refine configExt rfl rfl (fun j => ?_)
    fin_cases j <;> rfl
  exact e ▸ h

theorem raceStep3 : sync.CStep raceC2 raceC3 := by
  have h := sync.CStep.runClosure raceC2 0 (by decide)
  have e : ({ raceC2.updTh 0 { raceC2.th 0 with pc := sync.TPC.closing, val := none } with
      slot := (raceC2.th 0).val } : sync.Config 2 Nat) = raceC3 := by
    refine configExt rfl rfl (fun j => ?_)
    fin_cases j <;> rfl
  exact e ▸ h

theorem raceStep4 : sync.CStep raceC3 raceC4 := by
  have h := sync.CStep.complete raceC3 0 (by decide)
  have e : ({ raceC3.updTh 0 { raceC3.th 0 with pc := sync.TPC.afterCall } with
      gate := OnceState.completed } : sync.Config 2 Nat) = raceC4 := by
    refine configExt rfl rfl (fun j => ?_)
    fin_cases j <;> rfl
  exact e ▸ h

theorem raceStep5 : sync.CStep raceC4 raceC5 := by
  have h := sync.CStep.matchOk raceC4 0 (by decide) (by decide)
  have e : raceC4.updTh 0 { raceC4.th 0 with pc := sync.TPC.done (Except.ok ()) }
      = raceC5 := by
    refine configExt rfl rfl (fun j => ?_)
    fin_cases j <;> rfl
  exact e ▸ h

theorem raceStep6 : sync.CStep raceC5 raceC6 := by
  have h := sync.CStep.fastHit raceC5 1 (by decide) (by decide)
  have e : raceC5.updTh 1
      { raceC5.th 1 with pc := sync.TPC.done (Except.error ((raceC5.th 1).arg)) }
      = raceC6 := by
    refine configExt rfl rfl (fun j => ?_)
    fin_cases j <;> rfl
  exact e ▸ h

/-- The two-thread race interleaving is a real execution. -/
theorem raceReach : sync.Reach raceC0 raceC6 :=
  Relation.ReflTransGen.head raceStep1 (Relation.ReflTransGen.head raceStep2
    (Relation.ReflTransGen.head raceStep3 (Relation.ReflTransGen.head raceStep4
      (Relation.ReflTransGen.head raceStep5 (Relation.ReflTransGen.head raceStep6
        Relation.ReflTransGen.refl)))))

theorem benStep1 : sync.CStep benC0 benC1 := by
  have h := sync.CStep.fastMiss benC0 1 (by decide) (by decide)
  have e : benC0.updTh 1
      { benC0.th 1 with pc := sync.TPC.atCallOnce, val := some ((benC0.th 1).arg) }
      = benC1 := by
    refine configExt rfl rfl (fun j => ?_)
    fin_cases j <;> rfl
  exact e ▸ h

theorem benStep2 : sync.CStep benC1 benC2 := by
  have h := sync.CStep.fastMiss benC1 0 (by decide) (by decide)
  have e : benC1.updTh 0
      { benC1.th 0 with pc := sync.TPC.atCallOnce, val := some ((benC1.th 0).arg) }
      = benC2 := by
    refine configExt rfl rfl (fun j => ?_)
    fin_cases j <;> rfl
  exact e ▸ h

theorem benStep3 : sync.CStep benC2 benC3 := by
  have h := sync.CStep.win benC2 0 (by decide) (by decide)
  have e : ({ benC2.updTh 0 { benC2.th 0 with pc := sync.TPC.running } with
      gate := OnceState.inProgress } : sync.Config 2 Nat) = benC3 := by
    refine configExt rfl rfl (fun j => ?_)
    fin_cases j <;> rfl
  exact e ▸ h

theorem benStep4 : sync.CStep benC3 benC4 := by
  have h := sync.CStep.runClosure benC3 0 (by decide)
  have e : ({ benC3.updTh 0 { benC3.th 0 with pc := sync.TPC.closing, val := none } with
      slot := (benC3.th 0).val } : sync.Config 2 Nat) = benC4 := by
    refine configExt rfl rfl (fun j => ?_)
    fin_cases j <;> rfl
  exact e ▸ h

theorem benStep5 : sync.CStep benC4 benC5 := by
  have h := sync.CStep.complete benC4 0 (by decide)
  have e : ({ benC4.updTh 0 { benC4.th 0 with pc := sync.TPC.afterCall } with
      gate := OnceState.completed } : sync.Config 2 Nat) = benC5 := by
    refine configExt rfl rfl (fun j => ?_)
    fin_cases j <;> rfl
  exact e ▸ h

theorem benStep6 : sync.CStep benC5 benC6 := by
  have h := sync.CStep.skipClosure benC5 1 (by decide) (by decide)
  have e : benC5.updTh 1 { benC5.th 1 with pc := sync.TPC.afterCall } = benC6 := by
    refine configExt rfl rfl (fun j => ?_)
    fin_cases j <;> rfl
  exact e ▸ h

/-- The prefix of the benign-race interleaving reaching the closure. -/
theorem benReach3 : sync.Reach benC0 benC3 :=
  Relation.ReflTransGen.head benStep1 (Relation.ReflTransGen.head benStep2
    (Relation.ReflTransGen.head benStep3 Relation.ReflTransGen.refl))

/-- The whole benign-race interleaving is a real execution. -/
theorem benReach6 : sync.Reach benC0 benC6 :=
  Relation.ReflTransGen.head benStep1 (Relation.ReflTransGen.head benStep2
    (Relation.ReflTransGen.head benStep3 (Relation.ReflTransGen.head benStep4
      (Relation.ReflTransGen.head benStep5 (Relation.ReflTransGen.head benStep6
        Relation.ReflTransGen.refl)))))

/-- Claim C1: for every value `v` and both variants
(`unsync::OnceCell` and `sync::OnceCell`), a freshly created cell's
`get()` returns `None`; the first `set v` returns `Ok(())`; and every
subsequent `get()` (any number of repetitions) returns `some v`. -/
theorem claim_C1 (T : Type) (v : T) :
    (unsync.OnceCell.new T).get = none ∧
    ((unsync.OnceCell.new T).set v).1 = Except.ok () ∧
    (∀ k : Nat,
      ((((unsync.OnceCell.new T).set v).2).run (List.replicate k Op.get)).get
        = some v) ∧
    (sync.OnceCell.new T).get = none ∧
    ((sync.OnceCell.new T).set v).1 = Except.ok () ∧
    (∀ k : Nat,
      ((((sync.OnceCell.new T).set v).2).run (List.replicate k Op.get)).get
        = some v) := by
  refine ⟨rfl, ?_, ?_, ?_, ?_, ?_⟩
  · simp [unsync.OnceCell.set, unsync.OnceCell.get, unsync.OnceCell.new]
  · intro k
    rw [unsync.run_gets_unsync]
    simp [unsync.OnceCell.set, unsync.OnceCell.get, unsync.OnceCell.new]
  · simp [sync.OnceCell.get, sync.OnceCell.new]
  · simp [sync.OnceCell.set, sync.OnceCell.new]
  · intro k
    rw [sync.run_gets_sync]
    simp [sync.OnceCell.set, sync.OnceCell.get, sync.OnceCell.new]

/-- Claim C2: for `sync::OnceCell`, the gate is completed exactly when
the slot holds a value; this holds at every single-threadedly reachable
state (in particular at `new`) and is preserved by every `set` and
`get` call from such a state. -/
theorem claim_C2 {T : Type} (c : sync.OnceCell T) (h : sync.Reachable c) :
    (c.once = OnceState.completed ↔ (c.inner).isSome = true) ∧
    (∀ v : T, ((c.set v).2).once = OnceState.completed ↔
      (((c.set v).2).inner).isSome = true) ∧
    (((c.getS).2).once = OnceState.completed ↔
      (((c.getS).2).inner).isSome = true) :=
  ⟨sync.reachable_inv h, fun v => sync.reachable_inv (sync.Reachable.set v h),
    sync.reachable_inv (sync.Reachable.get h)⟩

theorem claim_C2_witness :
    sync.Reachable (sync.OnceCell.new Nat) ∧
    (((sync.OnceCell.new Nat).once = OnceState.completed ↔
        (((sync.OnceCell.new Nat).inner)).isSome = true) ∧
      (∀ v : Nat, (((sync.OnceCell.new Nat).set v).2).once = OnceState.completed ↔
        ((((sync.OnceCell.new Nat).set v).2).inner).isSome = true) ∧
      ((((sync.OnceCell.new Nat).getS).2).once = OnceState.completed ↔
        ((((sync.OnceCell.new Nat).getS).2).inner).isSome = true)) :=
  ⟨sync.Reachable.new, claim_C2 (sync.OnceCell.new Nat) sync.Reachable.new⟩

/-- Claim C3: under single-threaded use the two variants are
observationally equivalent: starting from fresh cells, every sequence
of `get`/`set` calls produces identical results at every step. -/
theorem claim_C3 (T : Type) (ops : List (Op T)) :
    (unsync.OnceCell.new T).runOut ops = (sync.OnceCell.new T).runOut ops :=
  sim_runOut ⟨rfl, by simp [unsync.OnceCell.new, sync.OnceCell.new]⟩ ops

/-- Claim C4: for both variants, `set v2` on a cell that already holds
a value returns `Err v2` — the argument itself, unmodified — and leaves
the whole cell state (slot, and for sync also the gate) unchanged. -/
theorem claim_C4 {T : Type} (v2 : T) :
    (∀ (c : unsync.OnceCell T) (w : T), c.get = some w →
      c.set v2 = (Except.error v2, c)) ∧
    (∀ (c : sync.OnceCell T) (w : T), c.get = some w →
      c.set v2 = (Except.error v2, c)) := by
  constructor
  · intro c w hw
    simp [unsync.OnceCell.set, hw]
  · intro c w hw
    simp [sync.OnceCell.set, (sync.get_some hw).1]

theorem claim_C4_witness :
    (unsync.OnceCell.mk (some 5)).get = some 5 ∧
    (unsync.OnceCell.mk (some 5)).set 6 =
      (Except.error 6, unsync.OnceCell.mk (some 5)) ∧
    (sync.OnceCell.mk (some 5) OnceState.completed).get = some 5 ∧
    (sync.OnceCell.mk (some 5) OnceState.completed).set 6 =
      (Except.error 6, sync.OnceCell.mk (some 5) OnceState.completed) :=
  ⟨rfl, (claim_C4 6).1 _ 5 rfl, rfl, (claim_C4 6).2 _ 5 rfl⟩

/-- Claim C5: for both variants, once a `get` has returned `some v`,
every later `get` — after any further sequence of `get` and `set`
calls — still returns `some v`. -/
theorem claim_C5 {T : Type} (v : T) :
    (∀ c : unsync.OnceCell T, c.get = some v →
      ∀ ops : List (Op T), (c.run ops).get = some v) ∧
    (∀ c : sync.OnceCell T, c.get = some v →
      ∀ ops : List (Op T), (c.run ops).get = some v) := by
  constructor
  · intro c hv ops
    have hc : c.inner = some v := hv
    rw [unsync.run_some_fix hc ops]
    exact hv
  · intro c hv ops
    obtain ⟨hc, _⟩ := sync.get_some hv
    rw [sync.run_completed_fix hc ops]
    exact hv

theorem claim_C5_witness :
    (unsync.OnceCell.mk (some 7)).get = some 7 ∧
    ((unsync.OnceCell.mk (some 7)).run [Op.set 9, Op.get]).get = some 7 ∧
    (sync.OnceCell.mk (some 7) OnceState.completed).get = some 7 ∧
    ((sync.OnceCell.mk (some 7) OnceState.completed).run [Op.set 9, Op.get]).get
      = some 7 :=
  ⟨rfl, (claim_C5 7).1 (unsync.OnceCell.mk (some 7)) rfl [Op.set 9, Op.get], rfl,
    (claim_C5 7).2 (sync.OnceCell.mk (some 7) OnceState.completed) rfl
      [Op.set 9, Op.get]⟩

/-- Claim C6: for `sync::OnceCell` in every reachable configuration of
the interleaved semantics, `get` returns the stored slot value exactly
when the gate is completed, and returns `none` whenever the gate is not
completed (uninitialized or in progress), without interacting with any
in-flight write. -/
theorem claim_C6 {n : Nat} {T : Type} (vs : Fin n → T) (c : sync.Config n T)
    (h : sync.Reach (sync.initConfig n vs) c) :
    (c.gate = OnceState.completed → ∃ v, c.slot = some v ∧ c.getC = some v) ∧
    (c.gate ≠ OnceState.completed → c.getC = none) := by
  have hInv := sync.inv_reach h (sync.inv_init vs)
  constructor
  · intro hg
    obtain ⟨v, hv⟩ := hInv.gateCompleted hg
    refine ⟨v, hv, ?_⟩
    simp [sync.Config.getC, hg, hv]
  · intro hg
    simp [sync.Config.getC, hg]

theorem claim_C6_witness :
    sync.Reach (sync.initConfig 2 ![0, 1]) benC3 ∧
    ((benC3.gate = OnceState.completed →
        ∃ v, benC3.slot = some v ∧ benC3.getC = some v) ∧
      (benC3.gate ≠ OnceState.completed → benC3.getC = none)) :=
  ⟨benReach3, claim_C6 ![0, 1] benC3 benReach3⟩

/-- On a completed cell, `sync::OnceCell::set` returns the argument as
an error and leaves the state untouched. -/
theorem sync_set_completed {T : Type} {c : sync.OnceCell T}
    (hc : c.once = OnceState.completed) (w : T) :
    c.set w = (Except.error w, c) := by
  simp [sync.OnceCell.set, hc]

/-- Claim C7: for `sync::OnceCell`, after any `set v` call returns
(with `Ok` or `Err`), the gate is completed and the state is final:
every later `set w` returns `Err w` leaving the state unchanged, no
sequence of calls changes the state, and `get` keeps returning the same
fixed result. -/
theorem claim_C7 {T : Type} (c : sync.OnceCell T) (h : sync.Reachable c) (v : T) :
    ((c.set v).2).once = OnceState.completed ∧
    (∀ w : T, ((c.set v).2).set w = (Except.error w, (c.set v).2)) ∧
    (∀ ops : List (Op T), ((c.set v).2).run ops = (c.set v).2) ∧
    (∀ ops : List (Op T), (((c.set v).2).run ops).get = ((c.set v).2).get) := by
  have hcomp : ((c.set v).2).once = OnceState.completed := by
    by_cases hc : c.once = OnceState.completed <;> simp [sync.OnceCell.set, hc]
  refine ⟨hcomp, fun w => sync_set_completed hcomp w, sync.run_completed_fix hcomp, ?_⟩
  intro ops
  rw [sync.run_completed_fix hcomp ops]

theorem claim_C7_witness :
    sync.Reachable (sync.OnceCell.new Nat) ∧
    ((((sync.OnceCell.new Nat).set 3).2).once = OnceState.completed ∧
      (∀ w : Nat, (((sync.OnceCell.new Nat).set 3).2).set w =
        (Except.error w, ((sync.OnceCell.new Nat).set 3).2)) ∧
      (∀ ops : List (Op Nat),
        (((sync.OnceCell.new Nat).set 3).2).run ops =
          ((sync.OnceCell.new Nat).set 3).2) ∧
      (∀ ops : List (Op Nat),
        ((((sync.OnceCell.new Nat).set 3).2).run ops).get =
          (((sync.OnceCell.new Nat).set 3).2).get)) :=
  ⟨sync.Reachable.new, claim_C7 (sync.OnceCell.new Nat) sync.Reachable.new 3⟩

/-- Claim C10: `sync::OnceCell::get` has no effect on the cell: the
state it hands back is the input state, with slot contents and gate
state identical, whatever the gate state (uninitialized, in progress or
completed). -/
theorem claim_C10 {T : Type} (c : sync.OnceCell T) :
    (c.getS).2 = c ∧ ((c.getS).2).inner = c.inner ∧ ((c.getS).2).once = c.once :=
  ⟨rfl, rfl, rfl⟩

/-- Claim C8: every debug assertion in the source holds whenever it is
evaluated: in `unsync::set` the value replaced on the success path
(i.e. when `get().is_some()` is false) is always `None`; in `sync::set`
the slot replaced inside the `call_once` closure is always `None` (the
closure runs with the executing thread at `running`); and whenever the
local `value` is still `Some` after `call_once` returned, the `Once` is
completed. -/
theorem claim_C8 {T : Type} :
    (∀ c : unsync.OnceCell T, (c.get).isSome = false → c.setAssertOld = none) ∧
    (∀ (n : Nat) (vs : Fin n → T) (c : sync.Config n T),
      sync.Reach (sync.initConfig n vs) c →
      ∀ i : Fin n,
        ((c.th i).pc = sync.TPC.running → c.slot = none) ∧
        (∀ w : T, (c.th i).pc = sync.TPC.afterCall → (c.th i).val = some w →
          c.gate = OnceState.completed)) := by
  constructor
  · intro c hc
    rcases hi : c.inner with _ | w
    · exact hi
    · simp [unsync.OnceCell.get, hi] at hc
  · intro n vs c hreach i
    have hInv := sync.inv_reach hreach (sync.inv_init vs)
    constructor
    · intro hpc
      have h2 := hInv.thInv i
      simp only [sync.ThreadInv, hpc, sync.PcInv] at h2
      exact h2.2.2
    · intro w hpc hval
      have h2 := hInv.thInv i
      simp only [sync.ThreadInv, hpc, sync.PcInv] at h2
      exact h2.1

theorem claim_C8_witness :
    ((unsync.OnceCell.mk (none : Option Nat)).get).isSome = false ∧
    (unsync.OnceCell.mk (none : Option Nat)).setAssertOld = none ∧
    sync.Reach (sync.initConfig 2 ![0, 1]) benC3 ∧
    (benC3.th 0).pc = sync.TPC.running ∧ benC3.slot = none ∧
    sync.Reach (sync.initConfig 2 ![0, 1]) benC6 ∧
    (benC6.th 1).pc = sync.TPC.afterCall ∧ (benC6.th 1).val = some 1 ∧
    benC6.gate = OnceState.completed :=
  ⟨rfl, (claim_C8 (T := Nat)).1 (unsync.OnceCell.mk none) rfl,
    benReach3, rfl,
    ((claim_C8 (T := Nat)).2 2 ![0, 1] benC3 benReach3 0).1 rfl,
    benReach6, rfl, rfl,
    ((claim_C8 (T := Nat)).2 2 ![0, 1] benC6 benReach6 1).2 1 rfl rfl⟩

/-- Claim C9: for `sync::OnceCell` under `n` concurrent `set` calls
with distinct values on one fresh cell: in every complete interleaved
execution exactly one call returned `Ok(())`; every other call returned
`Err` carrying back its own original value unchanged; and afterwards
`get` yields exactly the winner's value — in every such execution, so
the outcome is stable under repetition of the whole scenario. -/
theorem claim_C9 {n : Nat} {T : Type} (vs : Fin n → T) (hn : 0 < n)
    (hdist : Function.Injective vs) (c : sync.Config n T)
    (hreach : sync.Reach (sync.initConfig n vs) c) (hfin : c.Finished) :
    ∃ i : Fin n, (c.th i).pc = sync.TPC.done (Except.ok ()) ∧
      c.slot = some (vs i) ∧ c.gate = OnceState.completed ∧
      c.getC = some (vs i) ∧
      (∀ j : Fin n, j ≠ i → (c.th j).pc = sync.TPC.done (Except.error (vs j))) ∧
      (∀ j : Fin n, (c.th j).pc = sync.TPC.done (Except.ok ()) → j = i) := by
  have hInv := sync.inv_reach hreach (sync.inv_init vs)
  obtain ⟨i, h1, h2, h3, h4, h5⟩ := sync.finished_result hInv hfin hn
  have harg : ∀ j, (c.th j).arg = vs j := by
    intro j
    have hj := sync.reach_arg hreach j
    simpa [sync.initConfig] using hj
  refine ⟨i, h1, ?_, h3, ?_, ?_, h5⟩
  · rw [h2, harg i]
  · simp only [sync.Config.getC, if_pos h3]
    rw [h2, harg i]
  · intro j hj
    rw [h4 j hj, harg j]

theorem claim_C9_witness :
    0 < 2 ∧ Function.Injective (![0, 1] : Fin 2 → Nat) ∧
    sync.Reach (sync.initConfig 2 ![0, 1]) raceC6 ∧ raceC6.Finished ∧
    (∃ i : Fin 2, (raceC6.th i).pc = sync.TPC.done (Except.ok ()) ∧
      raceC6.slot = some (![0, 1] i) ∧ raceC6.gate = OnceState.completed ∧
      raceC6.getC = some (![0, 1] i) ∧
      (∀ j : Fin 2, j ≠ i →
        (raceC6.th j).pc = sync.TPC.done (Except.error (![0, 1] j))) ∧
      (∀ j : Fin 2, (raceC6.th j).pc = sync.TPC.done (Except.ok ()) → j = i)) :=
  ⟨by decide, fun a b hab => by fin_cases a <;> fin_cases b <;> simp_all,
    raceReach, fun i => by fin_cases i <;> rfl,
    claim_C9 ![0, 1] (by decide)
      (fun a b hab => by fin_cases a <;> fin_cases b <;> simp_all)
      raceC6 raceReach (fun i => by fin_cases i <;> rfl)⟩
